import Mathlib

/-!
The program `track` (main.go): command handlers and argument parser.

A shallow embedding of `main.go`.

* Go strings are Lean strings; a Go slice is a Lean list (the value the slice
  denotes).  Distinct keys of a `TrackDB` are taken to hold slices with disjoint
  backing arrays, which is the case for every map built by the TOML decoder and
  by the handlers themselves, so a write through a pointer into `db[tag]` is a
  write to the value stored under `tag` and to nothing else.
* A Go map is a nil map or an allocated map.  An allocated map is listed as its
  bindings; the first binding of a key is the one in force.
* `time.Now().Format("2006-01-02 15:04:05")` is the parameter `now`.
* Standard output is the string of bytes written to it.
* A Go runtime panic is `Except.error` carrying the panic message.
-/

namespace Track

/-- The type `Command` with its four constants; `Start` is `iota = 0`, the zero value. -/
inductive Command where
  | Start
  | Stop
  | Note
  | Show
deriving DecidableEq, Repr

/-- The struct `TrackEntry`. -/
structure TrackEntry where
  Start : String
  Stop : String
  Notes : List String
deriving DecidableEq, Repr

/-- The zero value `TrackEntry{}`. -/
def TrackEntry.zero : TrackEntry := { Start := "", Stop := "", Notes := [] }

/-- The type `TrackDB`, `map[string][]TrackEntry`: the nil map, or an allocated map
with its bindings. -/
inductive TrackDB where
  | nil
  | alloc (kvs : List (String × List TrackEntry))
deriving DecidableEq, Repr

/-- First binding of `tag` in a list of bindings. -/
def findTag (tag : String) : List (String × List TrackEntry) → Option (List TrackEntry)
  | [] => none
  | (k, v) :: rest => if k = tag then some v else findTag tag rest

/-- Bindings after `m[tag] = v` on an allocated map: the binding of `tag` is replaced,
or a new binding is added when `tag` is not a key. -/
def putTag (tag : String) (v : List TrackEntry) :
    List (String × List TrackEntry) → List (String × List TrackEntry)
  | [] => [(tag, v)]
  | (k, w) :: rest => if k = tag then (k, v) :: rest else (k, w) :: putTag tag v rest

/-- Go `v, ok := db[tag]`: `none` when `tag` is not a key (always so on the nil map). -/
def TrackDB.lookup (db : TrackDB) (tag : String) : Option (List TrackEntry) :=
  match db with
  | .nil => none
  | .alloc kvs => findTag tag kvs

/-- Go `db[tag]` as an expression: the zero value (the nil slice) when `tag` is not a key. -/
def TrackDB.index (db : TrackDB) (tag : String) : List TrackEntry :=
  (db.lookup tag).getD []

/-- Go `db[tag] = v`: a runtime panic on the nil map. -/
def TrackDB.assign (db : TrackDB) (tag : String) (v : List TrackEntry) :
    Except String TrackDB :=
  match db with
  | .nil => .error "assignment to entry in nil map"
  | .alloc kvs => .ok (.alloc (putTag tag v kvs))

/-- Write of `e` through the pointer `&entries[i]`, where `entries := db[tag]`: the
element `i` of the slice stored under `tag` becomes `e`. -/
def TrackDB.storeAt (db : TrackDB) (tag : String) (i : Nat) (e : TrackEntry) : TrackDB :=
  match db with
  | .nil => .nil
  | .alloc kvs =>
    match findTag tag kvs with
    | none => .alloc kvs
    | some entries => .alloc (putTag tag (entries.set i e) kvs)

/-- The keys of the map, in the order of the bindings. -/
def TrackDB.keys (db : TrackDB) : List String :=
  match db with
  | .nil => []
  | .alloc kvs => (kvs.map Prod.fst).eraseDups

/-- Go `s[i]` on a slice, with its runtime bounds check. -/
def elemAt (s : List TrackEntry) (i : Nat) : Except String TrackEntry :=
  match s[i]? with
  | some e => .ok e
  | none => .error "index out of range"

/-- The function `doStart` (lines 86-99): the final map and the bytes printed, or a panic. -/
def doStart (now : String) (tag : String) (db : TrackDB) : Except String (TrackDB × String) :=
  let entries := db.index tag
  let lastEntry : Except String TrackEntry :=
    if entries.length > 0 then elemAt entries (entries.length - 1) else .ok TrackEntry.zero
  match lastEntry with
  | .error msg => .error msg
  | .ok lastEntry =>
    if lastEntry.Start ≠ "" ∧ lastEntry.Stop = "" then
      .ok (db, "Already started at " ++ lastEntry.Start ++ "\n")
    else
      match db.assign tag (entries ++ [{ Start := now, Stop := "", Notes := [] }]) with
      | .error msg => .error msg
      | .ok db1 => .ok (db1, "")

/-- The function `doStop` (lines 101-113). -/
def doStop (now : String) (tag : String) (db : TrackDB) : Except String (TrackDB × String) :=
  let entries := db.index tag
  if entries.length = 0 then
    .ok (db, "Unknown tag \"" ++ tag ++ "\"\n")
  else
    match elemAt entries (entries.length - 1) with
    | .error msg => .error msg
    | .ok lastEntry =>
      if lastEntry.Stop ≠ "" then
        .ok (db, "Already stopped at " ++ lastEntry.Stop ++ "\n")
      else
        .ok (db.storeAt tag (entries.length - 1) { lastEntry with Stop := now }, "")

/-- The function `doNote` (lines 115-127). -/
def doNote (tag : String) (note : String) (db : TrackDB) : Except String (TrackDB × String) :=
  let entries := db.index tag
  if entries.length = 0 then
    .ok (db, "Unknown tag \"" ++ tag ++ "\"\n")
  else
    match elemAt entries (entries.length - 1) with
    | .error msg => .error msg
    | .ok lastEntry =>
      if lastEntry.Stop ≠ "" then
        .ok (db, "Not currently tracking anything\n")
      else
        .ok (db.storeAt tag (entries.length - 1)
          { lastEntry with Notes := lastEntry.Notes ++ [note] }, "")

/-- The lines printed for one entry (lines 139-142). -/
def showEntry (entry : TrackEntry) : String :=
  entry.Notes.foldl (fun out note => out ++ "\t\t" ++ note ++ "\n")
    ("\t" ++ entry.Start ++ " - " ++ entry.Stop ++ "\n")

/-- The function `doShow` (lines 129-144): the bytes printed.  The recursion of the
`"all"` branch is bounded by `fuel`; `none` is a recursion deeper than `fuel`.  The
range over the map visits the keys in the order of `TrackDB.keys`. -/
def doShow : Nat → String → TrackDB → Option String
  | fuel, tag, db =>
    if tag = "all" then
      match fuel with
      | 0 => none
      | f + 1 =>
        db.keys.foldl
          (fun acc t =>
            match acc, doShow f t db with
            | some out, some o => some (out ++ o)
            | _, _ => none)
          (some "")
    else
      some ((db.index tag).foldl (fun out entry => out ++ showEntry entry) (tag ++ "\n"))

/-- What `toml.DecodeFile(dbFile, &db)` did (the TOML library is not part of the
repository): decoded the file into `db`; failed to open the file because it does not
exist, leaving `db` untouched; or failed otherwise. -/
inductive DecodeOutcome where
  | decoded (db : TrackDB)
  | notExist (msg : String)
  | failed (msg : String)
deriving DecidableEq, Repr

/-- The function `readDB` (lines 146-158): the pair `(TrackDB, error)`.  `createErr` is
the error of `os.Create(dbFile)`, if any. -/
def readDB (decode : DecodeOutcome) (createErr : Option String) : TrackDB × Option String :=
  let db : TrackDB := .nil
  match decode with
  | .decoded db1 => (db1, none)
  | .notExist _ =>
    match createErr with
    | some err => (.nil, some err)
    | none => (db, none)
  | .failed msg => (.nil, some msg)

/-- Go `strings.Join(elems, sep)`. -/
def stringsJoin (elems : List String) (sep : String) : String :=
  match elems with
  | [] => ""
  | e :: rest => rest.foldl (fun b s => b ++ sep ++ s) e

/-- The results `(command, tag, note, err)` of `parseArgs`. -/
structure Parsed where
  command : Command
  tag : String
  note : String
  err : Option String
deriving DecidableEq, Repr

/-- The function `parseArgs` (lines 170-206); `Except.error` is the panic of an
index out of range. -/
def parseArgs (args : List String) : Except String Parsed :=
  let tagStep (command : Command) (note : String) (err : Option String) :
      Except String Parsed :=
    if args.length < 3 ∧ command ≠ Command.Show then
      .ok { command := command, tag := "", note := note, err := some "Error: Missing tag" }
    else if args.length < 3 then
      .ok { command := command, tag := "all", note := note, err := err }
    else
      match args[2]? with
      | none => .error "index out of range"
      | some a2 => .ok { command := command, tag := a2, note := note, err := err }
  if args.length = 1 then
    .ok { command := Command.Show, tag := "all", note := "", err := none }
  else
    match args[1]? with
    | none => .error "index out of range"
    | some a1 =>
      if a1 = "start" then tagStep Command.Start "" none
      else if a1 = "stop" then tagStep Command.Stop "" none
      else if a1 = "show" then tagStep Command.Show "" none
      else if a1 = "note" then
        if args.length < 4 then tagStep Command.Note "" (some "Error: Missing note")
        else tagStep Command.Note (stringsJoin (args.drop 3) " ") none
      else
        .ok { command := Command.Start, tag := "", note := "",
              err := some "Error: Invalid command (expected one of \"start\", \"stop\", \"show\", \"note\")" }

/-- The `switch command` of `main` (lines 67-76).  A `doShow` recursion deeper than
`fuel` is reported as an error. -/
def runCommand (now : String) (fuel : Nat) (command : Command) (tag note : String)
    (db : TrackDB) : Except String (TrackDB × String) :=
  match command with
  | .Start => doStart now tag db
  | .Stop => doStop now tag db
  | .Note => doNote tag note db
  | .Show =>
    match doShow fuel tag db with
    | none => .error "stack overflow"
    | some out => .ok (db, out)

/-- Lines 61-76 of `main`: load the map, or print the error and exit with status 1
(here `Except.ok none`), then run the command. -/
def loadAndRun (decode : DecodeOutcome) (createErr : Option String) (now : String)
    (fuel : Nat) (command : Command) (tag note : String) :
    Except String (Option (TrackDB × String)) :=
  match readDB decode createErr with
  | (_, some _) => .ok none
  | (db, none) =>
    match runCommand now fuel command tag note db with
    | .error msg => .error msg
    | .ok r => .ok (some r)

/-- The lines of one entry as the specification words them: the line
`<tab><Start> - <Stop>`, then one line `<tab><tab><note>` per note, in notes order. -/
def specEntryLines (entry : TrackEntry) : List String :=
  ("\t" ++ entry.Start ++ " - " ++ entry.Stop) :: entry.Notes.map (fun note => "\t\t" ++ note)

/-- The lines of a tag as the specification words them: the tag name, then the lines of
every entry in sequence order. -/
def specShowLines (tag : String) (entries : List TrackEntry) : List String :=
  tag :: (entries.map specEntryLines).flatten

/-- The bytes of a list of printed lines: every line is followed by a newline. -/
def specPrint (lines : List String) : String :=
  String.join (lines.map (fun line => line ++ "\n"))

/-- An entry is open when its `Start` is set and its `Stop` is empty. -/
def TrackEntry.isOpen (e : TrackEntry) : Prop := e.Start ≠ "" ∧ e.Stop = ""

instance TrackEntry.decIsOpen (e : TrackEntry) : Decidable e.isOpen := by
  unfold TrackEntry.isOpen
  infer_instance

/-- The property `P` holds of the entry sequence of every key of the map. -/
def TrackDB.each (P : List TrackEntry → Prop) (db : TrackDB) : Prop :=
  ∀ tag ∈ db.keys, P (db.index tag)

/-- For every tag, no entry other than the last one of its sequence is open. -/
def onlyLastOpen (db : TrackDB) : Prop :=
  db.each (fun entries => ∀ e ∈ entries.dropLast, ¬ e.isOpen)

instance decOnlyLastOpen (db : TrackDB) : Decidable (onlyLastOpen db) := by
  unfold onlyLastOpen TrackDB.each
  infer_instance

/-- Every entry of the map with a non-empty `Stop` has a non-empty `Start`. -/
def stopImpliesStart (db : TrackDB) : Prop :=
  db.each (fun entries => ∀ e ∈ entries, e.Stop ≠ "" → e.Start ≠ "")

instance decStopImpliesStart (db : TrackDB) : Decidable (stopImpliesStart db) := by
  unfold stopImpliesStart TrackDB.each
  infer_instance

/-- No key is bound to the empty sequence and every entry has a non-empty `Start`. -/
def startsSet (db : TrackDB) : Prop :=
  db.each (fun entries => entries ≠ [] ∧ ∀ e ∈ entries, e.Start ≠ "")

instance decStartsSet (db : TrackDB) : Decidable (startsSet db) := by
  unfold startsSet TrackDB.each
  infer_instance

/-- One call of a handler that changes the map: `start`, `stop` or `note`, with the
timestamp it reads from the clock. -/
inductive Call where
  | start (now tag : String)
  | stop (now tag : String)
  | note (tag text : String)
deriving DecidableEq, Repr

/-- The handler call that `c` stands for. -/
def Call.run (c : Call) (db : TrackDB) : Except String (TrackDB × String) :=
  match c with
  | .start now tag => doStart now tag db
  | .stop now tag => doStop now tag db
  | .note tag text => doNote tag text db

/-- The timestamp of the call, if it reads the clock, is not empty. -/
def Call.stamped (c : Call) : Prop :=
  match c with
  | .start now _ => now ≠ ""
  | .stop now _ => now ≠ ""
  | .note _ _ => True

instance Call.decStamped (c : Call) : Decidable c.stamped := by
  cases c <;> unfold Call.stamped <;> infer_instance

/-- The map after a finite sequence of handler calls, each on the map left by the one
before; a panic of a call ends the sequence. -/
def runCalls : List Call → TrackDB → Except String TrackDB
  | [], db => .ok db
  | c :: cs, db =>
    match c.run db with
    | .error msg => .error msg
    | .ok (db1, _) => runCalls cs db1

/-! Lemmas on the map operations -/

theorem findTag_putTag_self (tag : String) (v : List TrackEntry)
    (kvs : List (String × List TrackEntry)) :
    findTag tag (putTag tag v kvs) = some v := by
  induction kvs with
  | nil => simp [putTag, findTag]
  | cons kv rest ih =>
    obtain ⟨k, w⟩ := kv
    by_cases hk : k = tag
    · simp [putTag, findTag, hk]
    · simp [putTag, findTag, hk, ih]

theorem findTag_putTag_other (tag t : String) (v : List TrackEntry)
    (kvs : List (String × List TrackEntry)) (ht : t ≠ tag) :
    findTag t (putTag tag v kvs) = findTag t kvs := by
  induction kvs with
  | nil => simp [putTag, findTag, Ne.symm ht]
  | cons kv rest ih =>
    obtain ⟨k, w⟩ := kv
    by_cases hk : k = tag
    · subst hk
      simp [putTag, findTag, Ne.symm ht]
    · by_cases hkt : k = t
      · subst hkt
        simp [putTag, findTag, hk]
      · simp [putTag, findTag, hk, hkt, ih]

theorem lookup_assign_self (db db1 : TrackDB) (tag : String) (v : List TrackEntry)
    (h : db.assign tag v = .ok db1) : db1.lookup tag = some v := by
  cases db with
  | nil => simp [TrackDB.assign] at h
  | alloc kvs =>
    simp only [TrackDB.assign, Except.ok.injEq] at h
    subst h
    simp [TrackDB.lookup, findTag_putTag_self]

theorem lookup_assign_other (db db1 : TrackDB) (tag t : String) (v : List TrackEntry)
    (h : db.assign tag v = .ok db1) (ht : t ≠ tag) : db1.lookup t = db.lookup t := by
  cases db with
  | nil => simp [TrackDB.assign] at h
  | alloc kvs =>
    simp only [TrackDB.assign, Except.ok.injEq] at h
    subst h
    simp [TrackDB.lookup, findTag_putTag_other _ _ _ _ ht]

/-- A tag with entries is a key, bound to those entries. -/
theorem lookup_of_index (db : TrackDB) (tag : String) (earlier : List TrackEntry)
    (last : TrackEntry) (h : db.index tag = earlier ++ [last]) :
    db.lookup tag = some (earlier ++ [last]) := by
  unfold TrackDB.index at h
  cases hl : db.lookup tag with
  | none => simp [hl] at h
  | some v => simpa [hl] using h

theorem index_of_lookup (db : TrackDB) (tag : String) (v : List TrackEntry)
    (h : db.lookup tag = some v) : db.index tag = v := by
  simp [TrackDB.index, h]

theorem lookup_storeAt_self (db : TrackDB) (tag : String) (earlier : List TrackEntry)
    (last e : TrackEntry) (h : db.index tag = earlier ++ [last]) :
    (db.storeAt tag earlier.length e).lookup tag = some (earlier ++ [e]) := by
  have hl := lookup_of_index db tag earlier last h
  cases db with
  | nil => simp [TrackDB.lookup] at hl
  | alloc kvs =>
    simp only [TrackDB.lookup] at hl
    simp [TrackDB.storeAt, hl, TrackDB.lookup, findTag_putTag_self]

theorem lookup_storeAt_other (db : TrackDB) (tag t : String) (i : Nat) (e : TrackEntry)
    (ht : t ≠ tag) : (db.storeAt tag i e).lookup t = db.lookup t := by
  cases db with
  | nil => simp [TrackDB.storeAt]
  | alloc kvs =>
    cases hf : findTag tag kvs with
    | none => simp [TrackDB.storeAt, hf]
    | some v => simp [TrackDB.storeAt, hf, TrackDB.lookup, findTag_putTag_other _ _ _ _ ht]

theorem elemAt_concat (earlier : List TrackEntry) (last : TrackEntry) :
    elemAt (earlier ++ [last]) ((earlier ++ [last]).length - 1) = .ok last := by
  simp [elemAt]

/-! The handlers on an open and on a closed tail entry -/

theorem doStop_of_open (now tag : String) (db : TrackDB) (earlier : List TrackEntry)
    (last : TrackEntry) (hseq : db.index tag = earlier ++ [last]) (hopen : last.Stop = "") :
    doStop now tag db
      = .ok (db.storeAt tag earlier.length { last with Stop := now }, "") := by
  have he := elemAt_concat earlier last
  simp only [List.length_append, List.length_singleton, Nat.add_sub_cancel] at he
  simp [doStop, hseq, he, hopen]

theorem doStop_of_closed (now tag : String) (db : TrackDB) (earlier : List TrackEntry)
    (last : TrackEntry) (hseq : db.index tag = earlier ++ [last]) (hclosed : last.Stop ≠ "") :
    doStop now tag db = .ok (db, "Already stopped at " ++ last.Stop ++ "\n") := by
  have he := elemAt_concat earlier last
  simp only [List.length_append, List.length_singleton, Nat.add_sub_cancel] at he
  simp [doStop, hseq, he, hclosed]

theorem doStop_of_empty (now tag : String) (db : TrackDB) (hseq : db.index tag = []) :
    doStop now tag db = .ok (db, "Unknown tag \"" ++ tag ++ "\"\n") := by
  simp [doStop, hseq]

theorem doNote_of_open (tag note : String) (db : TrackDB) (earlier : List TrackEntry)
    (last : TrackEntry) (hseq : db.index tag = earlier ++ [last]) (hopen : last.Stop = "") :
    doNote tag note db
      = .ok (db.storeAt tag earlier.length { last with Notes := last.Notes ++ [note] }, "") := by
  have he := elemAt_concat earlier last
  simp only [List.length_append, List.length_singleton, Nat.add_sub_cancel] at he
  simp [doNote, hseq, he, hopen]

theorem doNote_of_closed (tag note : String) (db : TrackDB) (earlier : List TrackEntry)
    (last : TrackEntry) (hseq : db.index tag = earlier ++ [last]) (hclosed : last.Stop ≠ "") :
    doNote tag note db = .ok (db, "Not currently tracking anything\n") := by
  have he := elemAt_concat earlier last
  simp only [List.length_append, List.length_singleton, Nat.add_sub_cancel] at he
  simp [doNote, hseq, he, hclosed]

theorem doNote_of_empty (tag note : String) (db : TrackDB) (hseq : db.index tag = []) :
    doNote tag note db = .ok (db, "Unknown tag \"" ++ tag ++ "\"\n") := by
  simp [doNote, hseq]

theorem doStart_of_open (now tag : String) (db : TrackDB) (earlier : List TrackEntry)
    (last : TrackEntry) (hseq : db.index tag = earlier ++ [last])
    (hstart : last.Start ≠ "") (hopen : last.Stop = "") :
    doStart now tag db = .ok (db, "Already started at " ++ last.Start ++ "\n") := by
  have he := elemAt_concat earlier last
  simp only [List.length_append, List.length_singleton, Nat.add_sub_cancel] at he
  simp [doStart, hseq, he, hstart, hopen]

/-- When the tail entry is not open, `doStart` is the map assignment of line 98. -/
theorem doStart_of_not_open (now tag : String) (db : TrackDB)
    (h : db.index tag = []
      ∨ ∃ earlier last, db.index tag = earlier ++ [last] ∧ last.Stop ≠ "") :
    doStart now tag db
      = (db.assign tag (db.index tag ++ [{ Start := now, Stop := "", Notes := [] }])).map
          (fun db1 => (db1, "")) := by
  rcases h with h | ⟨earlier, last, hseq, hclosed⟩
  · simp only [doStart, h, List.length_nil, gt_iff_lt, lt_self_iff_false, if_false,
      TrackEntry.zero]
    cases db.assign tag ([] ++ [{ Start := now, Stop := "", Notes := [] }]) <;>
      simp [Except.map]
  · have he := elemAt_concat earlier last
    simp only [List.length_append, List.length_singleton, Nat.add_sub_cancel] at he
    simp only [doStart, hseq, List.length_append, List.length_singleton,
      Nat.add_sub_cancel, he]
    cases db.assign tag (earlier ++ [last] ++ [{ Start := now, Stop := "", Notes := [] }]) <;>
      simp [Except.map, hclosed]

/-! The claims -/

/-- C1, for an allocated map: if `tag` has no entries, or the last entry of `tag` has a
non-empty `Stop`, then `doStart` prints nothing and yields a map in which `tag` is bound
to its old sequence followed by the one new entry with `Start = now`, empty `Stop` and no
notes, and every other tag is bound as before; a tag without entries ends with exactly
that one entry. -/
theorem doStart_appends_entry (now tag : String) (db : TrackDB) (hdb : db ≠ TrackDB.nil)
    (h : db.index tag = []
      ∨ ∃ earlier last, db.index tag = earlier ++ [last] ∧ last.Stop ≠ "") :
    ∃ db1, doStart now tag db = .ok (db1, "")
      ∧ db1.lookup tag
          = some (db.index tag ++ [{ Start := now, Stop := "", Notes := [] }])
      ∧ (∀ t, t ≠ tag → db1.lookup t = db.lookup t)
      ∧ (db.index tag = [] →
          db1.index tag = [{ Start := now, Stop := "", Notes := [] }]) := by
  rw [doStart_of_not_open now tag db h]
  cases db with
  | nil => exact absurd rfl hdb
  | alloc kvs =>
    have ha : (TrackDB.alloc kvs).assign tag
        ((TrackDB.alloc kvs).index tag ++ [{ Start := now, Stop := "", Notes := [] }])
        = .ok (.alloc (putTag tag
            ((TrackDB.alloc kvs).index tag ++ [{ Start := now, Stop := "", Notes := [] }])
            kvs)) := rfl
    refine ⟨_, by rw [ha]; rfl, lookup_assign_self _ _ _ _ ha, ?_, ?_⟩
    · intro t ht
      exact lookup_assign_other _ _ _ _ _ ha ht
    · intro hnil
      rw [index_of_lookup _ _ _ (lookup_assign_self _ _ _ _ ha), hnil]
      rfl

/-- Witness of C1 (allocated map): a first `start foo` on the empty allocated map. -/
theorem doStart_appends_entry_witness :
    TrackDB.alloc [] ≠ TrackDB.nil
      ∧ (TrackDB.alloc []).index "foo" = []
      ∧ ∃ db1, doStart "2024-05-01 10:00:00" "foo" (TrackDB.alloc []) = .ok (db1, "")
        ∧ db1.lookup "foo"
            = some ((TrackDB.alloc []).index "foo"
                ++ [{ Start := "2024-05-01 10:00:00", Stop := "", Notes := [] }])
        ∧ (∀ t, t ≠ "foo" → db1.lookup t = (TrackDB.alloc []).lookup t)
        ∧ ((TrackDB.alloc []).index "foo" = [] →
            db1.index "foo"
              = [{ Start := "2024-05-01 10:00:00", Stop := "", Notes := [] }]) :=
  ⟨by decide, by decide,
    doStart_appends_entry "2024-05-01 10:00:00" "foo" (TrackDB.alloc []) (by decide)
      (Or.inl (by decide))⟩

/-- C1 as stated fails on the nil map: `foo` has no entries there, yet `doStart` panics
on the map assignment and yields no map. -/
theorem doStart_nil_map_no_append :
    TrackDB.nil.index "foo" = []
      ∧ doStart "2024-05-01 10:00:00" "foo" TrackDB.nil
          = .error "assignment to entry in nil map" :=
  ⟨by decide, by rfl⟩

/-- C2: when the sequence of `tag` is `earlier ++ [last]` and `last.Stop` is empty,
`doStop` prints nothing and yields a map in which `tag` is bound to `earlier` followed by
`last` with `Stop = now` (same `Start`, same `Notes`), and every other tag is bound as
before. -/
theorem doStop_sets_last_stop (now tag : String) (db : TrackDB)
    (earlier : List TrackEntry) (last : TrackEntry)
    (hseq : db.index tag = earlier ++ [last]) (hopen : last.Stop = "") :
    ∃ db1, doStop now tag db = .ok (db1, "")
      ∧ db1.lookup tag
          = some (earlier ++ [{ Start := last.Start, Stop := now, Notes := last.Notes }])
      ∧ (∀ t, t ≠ tag → db1.lookup t = db.lookup t) :=
  ⟨_, doStop_of_open now tag db earlier last hseq hopen,
    lookup_storeAt_self db tag earlier last _ hseq,
    fun t ht => lookup_storeAt_other db tag t _ _ ht⟩

/-- Witness of C2: `stop foo` on a map with a closed and an open entry of `foo` and
another tag. -/
theorem doStop_sets_last_stop_witness :
    (TrackDB.alloc [("bar", [⟨"T0", "", ["n"]⟩]),
        ("foo", [⟨"T1", "T2", []⟩, ⟨"T3", "", ["a"]⟩])]).index "foo"
        = [⟨"T1", "T2", []⟩] ++ [⟨"T3", "", ["a"]⟩]
      ∧ (⟨"T3", "", ["a"]⟩ : TrackEntry).Stop = ""
      ∧ ∃ db1, doStop "T4" "foo" (TrackDB.alloc [("bar", [⟨"T0", "", ["n"]⟩]),
            ("foo", [⟨"T1", "T2", []⟩, ⟨"T3", "", ["a"]⟩])]) = .ok (db1, "")
        ∧ db1.lookup "foo"
            = some ([⟨"T1", "T2", []⟩] ++ [⟨"T3", "T4", ["a"]⟩])
        ∧ (∀ t, t ≠ "foo" → db1.lookup t
            = (TrackDB.alloc [("bar", [⟨"T0", "", ["n"]⟩]),
                ("foo", [⟨"T1", "T2", []⟩, ⟨"T3", "", ["a"]⟩])]).lookup t) :=
  ⟨by decide, by decide,
    doStop_sets_last_stop "T4" "foo" _ [⟨"T1", "T2", []⟩] ⟨"T3", "", ["a"]⟩
      (by decide) (by decide)⟩

/-- C3: when the sequence of `tag` is `earlier ++ [last]` and `last.Stop` is empty,
`doNote tag a` yields a map in which `tag` is bound to `earlier` followed by `last` with
`Notes = last.Notes ++ [a]` and every other tag is bound as before; a following
`doNote tag b` leaves the notes of the last entry equal to `last.Notes ++ [a, b]`. -/
theorem doNote_appends_note (tag a b : String) (db : TrackDB)
    (earlier : List TrackEntry) (last : TrackEntry)
    (hseq : db.index tag = earlier ++ [last]) (hopen : last.Stop = "") :
    ∃ db1, doNote tag a db = .ok (db1, "")
      ∧ db1.lookup tag
          = some (earlier
              ++ [{ Start := last.Start, Stop := last.Stop, Notes := last.Notes ++ [a] }])
      ∧ (∀ t, t ≠ tag → db1.lookup t = db.lookup t)
      ∧ ∃ db2, doNote tag b db1 = .ok (db2, "")
        ∧ db2.lookup tag
            = some (earlier
                ++ [{ Start := last.Start, Stop := last.Stop, Notes := last.Notes ++ [a, b] }])
        ∧ (∀ t, t ≠ tag → db2.lookup t = db.lookup t) := by
  have h1 := lookup_storeAt_self db tag earlier last
    { last with Notes := last.Notes ++ [a] } hseq
  have hseq1 := index_of_lookup _ _ _ h1
  have h2 := lookup_storeAt_self _ tag earlier _
    { Start := last.Start, Stop := last.Stop, Notes := (last.Notes ++ [a]) ++ [b] } hseq1
  refine ⟨_, doNote_of_open tag a db earlier last hseq hopen, h1,
    fun t ht => lookup_storeAt_other db tag t _ _ ht,
    _, doNote_of_open tag b _ earlier _ hseq1 hopen, ?_, ?_⟩
  · simpa using h2
  · intro t ht
    rw [lookup_storeAt_other _ tag t _ _ ht, lookup_storeAt_other _ tag t _ _ ht]

/-- Witness of C3: two notes on the open entry of `foo`, which already has a note. -/
theorem doNote_appends_note_witness :
    (TrackDB.alloc [("foo", [⟨"T1", "T2", []⟩, ⟨"T3", "", ["n"]⟩])]).index "foo"
        = [⟨"T1", "T2", []⟩] ++ [⟨"T3", "", ["n"]⟩]
      ∧ (⟨"T3", "", ["n"]⟩ : TrackEntry).Stop = ""
      ∧ ∃ db1, doNote "foo" "a"
            (TrackDB.alloc [("foo", [⟨"T1", "T2", []⟩, ⟨"T3", "", ["n"]⟩])]) = .ok (db1, "")
        ∧ db1.lookup "foo" = some ([⟨"T1", "T2", []⟩] ++ [⟨"T3", "", ["n"] ++ ["a"]⟩])
        ∧ (∀ t, t ≠ "foo" → db1.lookup t
            = (TrackDB.alloc [("foo", [⟨"T1", "T2", []⟩, ⟨"T3", "", ["n"]⟩])]).lookup t)
        ∧ ∃ db2, doNote "foo" "b" db1 = .ok (db2, "")
          ∧ db2.lookup "foo" = some ([⟨"T1", "T2", []⟩] ++ [⟨"T3", "", ["n"] ++ ["a", "b"]⟩])
          ∧ (∀ t, t ≠ "foo" → db2.lookup t
              = (TrackDB.alloc [("foo", [⟨"T1", "T2", []⟩, ⟨"T3", "", ["n"]⟩])]).lookup t) :=
  ⟨by decide, by decide,
    doNote_appends_note "foo" "a" "b" _ [⟨"T1", "T2", []⟩] ⟨"T3", "", ["n"]⟩
      (by decide) (by decide)⟩

/-- C4: when the last entry of `tag` is open (`Start` non-empty, `Stop` empty), `doStart`
returns the map it was given and prints the one line `Already started at <Start>`. -/
theorem doStart_already_started (now tag : String) (db : TrackDB)
    (earlier : List TrackEntry) (last : TrackEntry)
    (hseq : db.index tag = earlier ++ [last])
    (hstart : last.Start ≠ "") (hopen : last.Stop = "") :
    doStart now tag db = .ok (db, "Already started at " ++ last.Start ++ "\n") :=
  doStart_of_open now tag db earlier last hseq hstart hopen

/-- Witness of C4: `start foo` while `foo` is running since `T3`. -/
theorem doStart_already_started_witness :
    (TrackDB.alloc [("foo", [⟨"T1", "T2", []⟩, ⟨"T3", "", ["n"]⟩])]).index "foo"
        = [⟨"T1", "T2", []⟩] ++ [⟨"T3", "", ["n"]⟩]
      ∧ (⟨"T3", "", ["n"]⟩ : TrackEntry).Start ≠ ""
      ∧ (⟨"T3", "", ["n"]⟩ : TrackEntry).Stop = ""
      ∧ doStart "T4" "foo" (TrackDB.alloc [("foo", [⟨"T1", "T2", []⟩, ⟨"T3", "", ["n"]⟩])])
          = .ok (TrackDB.alloc [("foo", [⟨"T1", "T2", []⟩, ⟨"T3", "", ["n"]⟩])],
              "Already started at " ++ "T3" ++ "\n") :=
  ⟨by decide, by decide, by decide,
    doStart_already_started "T4" "foo" _ [⟨"T1", "T2", []⟩] ⟨"T3", "", ["n"]⟩
      (by decide) (by decide) (by decide)⟩

/-- C5: when `tag` has no entries (it is not a key, or it is bound to the empty
sequence), `doStop` returns the map it was given, so no key is created, and prints the
one line `Unknown tag "<tag>"`. -/
theorem doStop_unknown_tag (now tag : String) (db : TrackDB)
    (h : db.lookup tag = none ∨ db.lookup tag = some []) :
    doStop now tag db = .ok (db, "Unknown tag \"" ++ tag ++ "\"\n") := by
  apply doStop_of_empty
  rcases h with h | h <;> simp [TrackDB.index, h]

/-- Witness of C5: `stop foo` on a map that has only the key `bar`. -/
theorem doStop_unknown_tag_witness :
    ((TrackDB.alloc [("bar", [⟨"T0", "", []⟩])]).lookup "foo" = none
        ∨ (TrackDB.alloc [("bar", [⟨"T0", "", []⟩])]).lookup "foo" = some [])
      ∧ doStop "T1" "foo" (TrackDB.alloc [("bar", [⟨"T0", "", []⟩])])
          = .ok (TrackDB.alloc [("bar", [⟨"T0", "", []⟩])], "Unknown tag \"" ++ "foo" ++ "\"\n") :=
  ⟨Or.inl (by decide),
    doStop_unknown_tag "T1" "foo" (TrackDB.alloc [("bar", [⟨"T0", "", []⟩])])
      (Or.inl (by decide))⟩

/-- C6: `doNote` on a tag without entries returns the map it was given and prints
`Unknown tag "<tag>"`; on a tag whose last entry has a non-empty `Stop` it returns the map
it was given and prints `Not currently tracking anything`; and the arguments
`track note foo hello world`, parsed by `parseArgs` and run on a map without `foo`,
print `Unknown tag "foo"` and leave the map as it was. -/
theorem doNote_unknown_or_stopped (tag text : String) (db : TrackDB) :
    (db.lookup tag = none ∨ db.lookup tag = some [] →
        doNote tag text db = .ok (db, "Unknown tag \"" ++ tag ++ "\"\n"))
      ∧ (∀ earlier last, db.index tag = earlier ++ [last] → last.Stop ≠ "" →
          doNote tag text db = .ok (db, "Not currently tracking anything\n"))
      ∧ (db.lookup "foo" = none → ∀ now fuel,
          ∃ p, parseArgs ["track", "note", "foo", "hello", "world"] = .ok p
            ∧ p.err = none
            ∧ runCommand now fuel p.command p.tag p.note db
                = .ok (db, "Unknown tag \"foo\"\n")) := by
  refine ⟨?_, ?_, ?_⟩
  · intro h
    apply doNote_of_empty
    rcases h with h | h <;> simp [TrackDB.index, h]
  · intro earlier last hseq hclosed
    exact doNote_of_closed tag text db earlier last hseq hclosed
  · intro h now fuel
    refine ⟨⟨Command.Note, "foo", "hello world", none⟩, by rfl, rfl, ?_⟩
    have hidx : db.index "foo" = [] := by simp [TrackDB.index, h]
    show doNote "foo" "hello world" db = _
    rw [doNote_of_empty "foo" "hello world" db hidx]
    rfl

/-- Witness of C6: a note for the unknown tag `foo`, a note for the stopped tag `bar`,
and `track note foo hello world` on a map without `foo`. -/
theorem doNote_unknown_or_stopped_witness :
    doNote "foo" "hello" (TrackDB.alloc [("bar", [⟨"T0", "T1", []⟩])])
        = .ok (TrackDB.alloc [("bar", [⟨"T0", "T1", []⟩])], "Unknown tag \"" ++ "foo" ++ "\"\n")
      ∧ doNote "bar" "hello" (TrackDB.alloc [("bar", [⟨"T0", "T1", []⟩])])
        = .ok (TrackDB.alloc [("bar", [⟨"T0", "T1", []⟩])], "Not currently tracking anything\n")
      ∧ ∃ p, parseArgs ["track", "note", "foo", "hello", "world"] = .ok p
          ∧ p.err = none
          ∧ runCommand "T2" 2 p.command p.tag p.note (TrackDB.alloc [("bar", [⟨"T0", "T1", []⟩])])
              = .ok (TrackDB.alloc [("bar", [⟨"T0", "T1", []⟩])], "Unknown tag \"foo\"\n") :=
  ⟨(doNote_unknown_or_stopped "foo" "hello" (TrackDB.alloc [("bar", [⟨"T0", "T1", []⟩])])).1
      (Or.inl (by decide)),
    (doNote_unknown_or_stopped "bar" "hello" (TrackDB.alloc [("bar", [⟨"T0", "T1", []⟩])])).2.1
      [] ⟨"T0", "T1", []⟩ (by decide) (by decide),
    (doNote_unknown_or_stopped "foo" "hello" (TrackDB.alloc [("bar", [⟨"T0", "T1", []⟩])])).2.2
      (by decide) "T2" 2⟩

/-- C7: for a non-empty timestamp `now1`, `doStop` at `now1` yields a map `db1` on which a
second `doStop` at `now2` returns `db1` again; the last entry of `tag` in `db1` has
`Stop = now1` when it was open and its earlier `Stop` when it was already stopped. -/
theorem doStop_twice (now1 now2 tag : String) (db : TrackDB) (hnow : now1 ≠ "") :
    ∃ db1 out1 out2, doStop now1 tag db = .ok (db1, out1)
      ∧ doStop now2 tag db1 = .ok (db1, out2)
      ∧ ∀ earlier last, db.index tag = earlier ++ [last] →
          db1.index tag = earlier
            ++ [⟨last.Start, if last.Stop = "" then now1 else last.Stop, last.Notes⟩] := by
  rcases List.eq_nil_or_concat (db.index tag) with hnil | ⟨earlier, last, hseq⟩
  swap
  · rw [List.concat_eq_append] at hseq
    by_cases hopen : last.Stop = ""
    · have h1 := lookup_storeAt_self db tag earlier last { last with Stop := now1 } hseq
      have hseq1 := index_of_lookup _ _ _ h1
      refine ⟨_, _, _, doStop_of_open now1 tag db earlier last hseq hopen,
        doStop_of_closed now2 tag _ earlier _ hseq1 hnow, ?_⟩
      intro earlier2 last2 h
      rw [hseq] at h
      obtain ⟨he, hl⟩ := List.append_inj' h rfl
      simp only [List.cons.injEq, and_true] at hl
      subst he hl
      simp [hseq1, hopen]
    · refine ⟨db, _, _, doStop_of_closed now1 tag db earlier last hseq hopen,
        doStop_of_closed now2 tag db earlier last hseq hopen, ?_⟩
      intro earlier2 last2 h
      rw [hseq] at h
      obtain ⟨he, hl⟩ := List.append_inj' h rfl
      simp only [List.cons.injEq, and_true] at hl
      subst he hl
      simp [hseq, hopen]
  · refine ⟨db, _, _, doStop_of_empty now1 tag db hnil, doStop_of_empty now2 tag db hnil, ?_⟩
    intro earlier last h
    rw [hnil] at h
    simp at h

/-- Witness of C7: two stops of the running tag `foo`. -/
theorem doStop_twice_witness :
    "T2" ≠ ""
      ∧ ∃ db1 out1 out2,
        doStop "T2" "foo" (TrackDB.alloc [("foo", [⟨"T1", "", []⟩])]) = .ok (db1, out1)
        ∧ doStop "T3" "foo" db1 = .ok (db1, out2)
        ∧ ∀ earlier last,
            (TrackDB.alloc [("foo", [⟨"T1", "", []⟩])]).index "foo" = earlier ++ [last] →
            db1.index "foo" = earlier
              ++ [⟨last.Start, if last.Stop = "" then "T2" else last.Stop, last.Notes⟩] :=
  ⟨by decide,
    doStop_twice "T2" "T3" "foo" (TrackDB.alloc [("foo", [⟨"T1", "", []⟩])]) (by decide)⟩

/-- C8, as the code behaves: when the backing file does not exist and is created,
`readDB` returns the nil map without error; `doStop`, `doNote` and `doShow` complete on
it, but `doStart` panics on the map assignment for every tag, so lines 61-76 of `main`
with the command `start` end in that panic and no map with an entry of `tag` results. -/
theorem readDB_missing_file_doStart_panics (msg now tag note : String) (fuel : Nat) :
    readDB (DecodeOutcome.notExist msg) none = (TrackDB.nil, none)
      ∧ doStart now tag (readDB (DecodeOutcome.notExist msg) none).1
          = .error "assignment to entry in nil map"
      ∧ loadAndRun (DecodeOutcome.notExist msg) none now fuel Command.Start tag note
          = .error "assignment to entry in nil map"
      ∧ doStop now tag (readDB (DecodeOutcome.notExist msg) none).1
          = .ok (TrackDB.nil, "Unknown tag \"" ++ tag ++ "\"\n")
      ∧ doNote tag note (readDB (DecodeOutcome.notExist msg) none).1
          = .ok (TrackDB.nil, "Unknown tag \"" ++ tag ++ "\"\n")
      ∧ doShow (fuel + 1) "all" (readDB (DecodeOutcome.notExist msg) none).1 = some "" := by
  have hstart : doStart now tag TrackDB.nil = .error "assignment to entry in nil map" := by
    simp [doStart, TrackDB.index, TrackDB.lookup, TrackEntry.zero, TrackDB.assign]
  refine ⟨rfl, hstart, ?_, ?_, ?_, ?_⟩
  · simp [loadAndRun, readDB, runCommand, hstart]
  · exact doStop_of_empty now tag TrackDB.nil rfl
  · exact doNote_of_empty tag note TrackDB.nil rfl
  · simp [doShow, readDB, TrackDB.keys]

theorem stringsJoin_eq_intercalate (elems : List String) (sep : String) :
    stringsJoin elems sep = String.intercalate sep elems := by
  cases elems with
  | nil => rfl
  | cons e rest =>
    simp only [stringsJoin, String.intercalate]
    induction rest generalizing e with
    | nil => rfl
    | cons r rs ih => simpa [String.intercalate.go] using ih (e ++ sep ++ r)

/-- C9: for an argument list of at least two tokens, `parseArgs` returns (without
panic) the error `Error: Invalid command (expected one of "start", "stop", "show",
"note")` exactly when `args[1]` is none of the strings `start`, `stop`, `show`, `note`;
when it is one of them the returned command is `Start`, `Stop`, `Show`, `Note`
respectively. -/
theorem parseArgs_invalid_command_iff (args : List String) (hlen : 2 ≤ args.length) :
    ∃ p, parseArgs args = .ok p
      ∧ (p.err = some
            "Error: Invalid command (expected one of \"start\", \"stop\", \"show\", \"note\")"
          ↔ (args[1]? ≠ some "start" ∧ args[1]? ≠ some "stop"
              ∧ args[1]? ≠ some "show" ∧ args[1]? ≠ some "note"))
      ∧ (args[1]? = some "start" → p.command = Command.Start)
      ∧ (args[1]? = some "stop" → p.command = Command.Stop)
      ∧ (args[1]? = some "show" → p.command = Command.Show)
      ∧ (args[1]? = some "note" → p.command = Command.Note) := by
  obtain ⟨a1, h1⟩ : ∃ a1, args[1]? = some a1 :=
    ⟨args[1], List.getElem?_eq_getElem (by omega)⟩
  have hne : args.length ≠ 1 := by omega
  by_cases h3 : args.length < 3
  · simp only [parseArgs, hne, h1, h3, if_true, if_false, true_and]
    split_ifs <;> simp_all
  · obtain ⟨a2, h2⟩ : ∃ a2, args[2]? = some a2 :=
      ⟨args[2], List.getElem?_eq_getElem (by omega)⟩
    simp only [parseArgs, hne, h1, h2, h3, if_true, if_false, false_and]
    split_ifs <;> simp_all

/-- Witness of C9: the unknown command `bogus`. -/
theorem parseArgs_invalid_command_iff_witness :
    2 ≤ ["track", "bogus", "foo"].length
      ∧ ∃ p, parseArgs ["track", "bogus", "foo"] = .ok p
        ∧ (p.err = some
              "Error: Invalid command (expected one of \"start\", \"stop\", \"show\", \"note\")"
            ↔ (["track", "bogus", "foo"][1]? ≠ some "start"
                ∧ ["track", "bogus", "foo"][1]? ≠ some "stop"
                ∧ ["track", "bogus", "foo"][1]? ≠ some "show"
                ∧ ["track", "bogus", "foo"][1]? ≠ some "note"))
        ∧ (["track", "bogus", "foo"][1]? = some "start" → p.command = Command.Start)
        ∧ (["track", "bogus", "foo"][1]? = some "stop" → p.command = Command.Stop)
        ∧ (["track", "bogus", "foo"][1]? = some "show" → p.command = Command.Show)
        ∧ (["track", "bogus", "foo"][1]? = some "note" → p.command = Command.Note) :=
  ⟨by decide, parseArgs_invalid_command_iff ["track", "bogus", "foo"] (by decide)⟩

/-- C10: for an argument list of at least four tokens whose `args[1]` is `note`,
`parseArgs` returns no error, the command `Note`, the tag `args[2]`, and as note the
tokens from `args[3]` on joined with one space between consecutive tokens. -/
theorem parseArgs_note_joins_words (args : List String) (hlen : 4 ≤ args.length)
    (hcmd : args[1]? = some "note") :
    ∃ p, parseArgs args = .ok p
      ∧ p.err = none
      ∧ p.command = Command.Note
      ∧ args[2]? = some p.tag
      ∧ p.note = stringsJoin (args.drop 3) " "
      ∧ p.note = String.intercalate " " (args.drop 3) := by
  obtain ⟨a2, h2⟩ : ∃ a2, args[2]? = some a2 :=
    ⟨args[2], List.getElem?_eq_getElem (by omega)⟩
  have hne : args.length ≠ 1 := by omega
  have h3 : ¬ args.length < 3 := by omega
  have h4 : ¬ args.length < 4 := by omega
  refine ⟨⟨Command.Note, a2, stringsJoin (args.drop 3) " ", none⟩, ?_, rfl, rfl, h2, rfl,
    stringsJoin_eq_intercalate _ _⟩
  simp [parseArgs, hne, hcmd, h2, h3, h4]

/-- Witness of C10: `track note foo hello wide world`. -/
theorem parseArgs_note_joins_words_witness :
    4 ≤ ["track", "note", "foo", "hello", "wide", "world"].length
      ∧ ["track", "note", "foo", "hello", "wide", "world"][1]? = some "note"
      ∧ ∃ p, parseArgs ["track", "note", "foo", "hello", "wide", "world"] = .ok p
        ∧ p.err = none
        ∧ p.command = Command.Note
        ∧ ["track", "note", "foo", "hello", "wide", "world"][2]? = some p.tag
        ∧ p.note = stringsJoin (["track", "note", "foo", "hello", "wide", "world"].drop 3) " "
        ∧ p.note
            = String.intercalate " " (["track", "note", "foo", "hello", "wide", "world"].drop 3) :=
  ⟨by decide, by decide,
    parseArgs_note_joins_words ["track", "note", "foo", "hello", "wide", "world"]
      (by decide) (by decide)⟩

/-- C11, for exactly three tokens: when `args[1]` is `note` and only the tag follows,
`parseArgs` returns the error `Error: Missing note`, with the command `Note` and the tag
`args[2]`. -/
theorem parseArgs_note_missing_words (args : List String) (hlen : args.length = 3)
    (hcmd : args[1]? = some "note") :
    ∃ p, parseArgs args = .ok p
      ∧ p.err = some "Error: Missing note"
      ∧ p.command = Command.Note
      ∧ args[2]? = some p.tag := by
  obtain ⟨a2, h2⟩ : ∃ a2, args[2]? = some a2 :=
    ⟨args[2], List.getElem?_eq_getElem (by omega)⟩
  have hne : args.length ≠ 1 := by omega
  have h3 : ¬ args.length < 3 := by omega
  have h4 : args.length < 4 := by omega
  refine ⟨⟨Command.Note, a2, "", some "Error: Missing note"⟩, ?_, rfl, rfl, h2⟩
  simp [parseArgs, hne, hcmd, h2, h3, h4]

/-- Witness of C11 (three tokens): `track note foo`. -/
theorem parseArgs_note_missing_words_witness :
    ["track", "note", "foo"].length = 3
      ∧ ["track", "note", "foo"][1]? = some "note"
      ∧ ∃ p, parseArgs ["track", "note", "foo"] = .ok p
        ∧ p.err = some "Error: Missing note"
        ∧ p.command = Command.Note
        ∧ ["track", "note", "foo"][2]? = some p.tag :=
  ⟨by decide, by decide,
    parseArgs_note_missing_words ["track", "note", "foo"] (by decide) (by decide)⟩

/-- C11 as stated fails on `track note`: `args[1]` is `note`, there are fewer than four
tokens, and the error returned is `Error: Missing tag`, which line 198 writes over the
`Error: Missing note` of line 188. -/
theorem parseArgs_note_alone_missing_tag :
    ["track", "note"][1]? = some "note"
      ∧ ["track", "note"].length < 4
      ∧ parseArgs ["track", "note"]
          = .ok { command := Command.Note, tag := "", note := "",
                  err := some "Error: Missing tag" }
      ∧ some "Error: Missing tag" ≠ some "Error: Missing note" :=
  ⟨by decide, by decide, by rfl, by decide⟩

/-- C12: on `[prog, c]` with `c` one of `start`, `stop`, `note`, `parseArgs` returns the
error `Error: Missing tag`; on an argument list of at least three tokens whose `args[1]`
is `start` or `stop` it returns no error and the tag `args[2]`. -/
theorem parseArgs_missing_tag :
    (∀ prog c : String, c = "start" ∨ c = "stop" ∨ c = "note" →
        ∃ p, parseArgs [prog, c] = .ok p ∧ p.err = some "Error: Missing tag")
      ∧ (∀ args : List String, 3 ≤ args.length →
          args[1]? = some "start" ∨ args[1]? = some "stop" →
          ∃ p, parseArgs args = .ok p ∧ p.err = none ∧ args[2]? = some p.tag) := by
  constructor
  · intro prog c hc
    rcases hc with hc | hc | hc <;> subst hc <;> exact ⟨_, rfl, rfl⟩
  · intro args hlen hcmd
    obtain ⟨a2, h2⟩ : ∃ a2, args[2]? = some a2 :=
      ⟨args[2], List.getElem?_eq_getElem (by omega)⟩
    have hne : args.length ≠ 1 := by omega
    have h3 : ¬ args.length < 3 := by omega
    rcases hcmd with hcmd | hcmd
    · refine ⟨⟨Command.Start, a2, "", none⟩, ?_, rfl, h2⟩
      simp [parseArgs, hne, hcmd, h2, h3]
    · refine ⟨⟨Command.Stop, a2, "", none⟩, ?_, rfl, h2⟩
      simp [parseArgs, hne, hcmd, h2, h3]

/-- Witness of C12: `track note` without a tag, and `track stop foo`. -/
theorem parseArgs_missing_tag_witness :
    (∃ p, parseArgs ["track", "note"] = .ok p ∧ p.err = some "Error: Missing tag")
      ∧ ∃ p, parseArgs ["track", "stop", "foo"] = .ok p ∧ p.err = none
          ∧ ["track", "stop", "foo"][2]? = some p.tag :=
  ⟨parseArgs_missing_tag.1 "track" "note" (Or.inr (Or.inr rfl)),
    parseArgs_missing_tag.2 ["track", "stop", "foo"] (by decide) (Or.inr (by decide))⟩

theorem keys_of_no_tags (db : TrackDB) (h : ∀ t, db.lookup t = none) : db.keys = [] := by
  cases db with
  | nil => rfl
  | alloc kvs =>
    cases kvs with
    | nil => rfl
    | cons kv rest =>
      obtain ⟨k, v⟩ := kv
      have := h k
      simp [TrackDB.lookup, findTag] at this

/-- C13: `parseArgs` on the program name alone and on `[prog, "show"]` returns the
command `Show`, the tag `all`, an empty note and no error; and that command, run on a
map without tags, prints nothing and leaves the map as it was. -/
theorem parseArgs_default_show_all :
    (∀ prog : String, parseArgs [prog]
        = .ok { command := Command.Show, tag := "all", note := "", err := none })
      ∧ (∀ prog : String, parseArgs [prog, "show"]
        = .ok { command := Command.Show, tag := "all", note := "", err := none })
      ∧ (∀ (db : TrackDB) (now : String) (fuel : Nat), (∀ t, db.lookup t = none) →
          runCommand now (fuel + 1) Command.Show "all" "" db = .ok (db, "")) := by
  refine ⟨fun _ => rfl, fun _ => rfl, ?_⟩
  intro db now fuel h
  simp [runCommand, doShow, keys_of_no_tags db h]

/-- Witness of C13: `track` on the empty allocated map. -/
theorem parseArgs_default_show_all_witness :
    (∀ t, (TrackDB.alloc []).lookup t = none)
      ∧ parseArgs ["track"]
          = .ok { command := Command.Show, tag := "all", note := "", err := none }
      ∧ runCommand "T1" (1 + 1) Command.Show "all" "" (TrackDB.alloc [])
          = .ok (TrackDB.alloc [], "") :=
  ⟨fun _ => rfl, parseArgs_default_show_all.1 "track",
    parseArgs_default_show_all.2.2 (TrackDB.alloc []) "T1" 1 (fun _ => rfl)⟩

/-! Lemmas on the printed output -/

theorem join_cons (a : String) (l : List String) : String.join (a :: l) = a ++ String.join l := by
  apply String.ext
  simp [String.join_eq]

theorem join_append (l m : List String) :
    String.join (l ++ m) = String.join l ++ String.join m := by
  apply String.ext
  simp [String.join_eq]

theorem foldl_append_eq_join {α : Type} (f : α → String) (l : List α) (acc : String) :
    l.foldl (fun out x => out ++ f x) acc = acc ++ String.join (l.map f) := by
  induction l generalizing acc with
  | nil => simp [String.join]
  | cons x xs ih => simp [ih, join_cons, String.append_assoc]

theorem showEntry_eq (entry : TrackEntry) :
    showEntry entry = specPrint (specEntryLines entry) := by
  have hf : (fun (out : String) (note : String) => out ++ "\t\t" ++ note ++ "\n")
      = (fun out note => out ++ (fun n => "\t\t" ++ n ++ "\n") note) := by
    funext out note
    simp [String.append_assoc]
  simp only [showEntry, hf, foldl_append_eq_join, specPrint, specEntryLines, List.map_cons,
    List.map_map, join_cons]
  rfl

theorem specPrint_append (l m : List String) :
    specPrint (l ++ m) = specPrint l ++ specPrint m := by
  simp [specPrint, join_append]

theorem specPrint_flatten (ls : List (List String)) :
    specPrint ls.flatten = String.join (ls.map specPrint) := by
  induction ls with
  | nil => rfl
  | cons l rest ih => simp [specPrint_append, ih, join_cons]

/-- The block printed for a tag other than `all`, at any recursion depth. -/
theorem doShow_of_ne_all (fuel : Nat) (tag : String) (db : TrackDB) (htag : tag ≠ "all") :
    doShow fuel tag db = some (specPrint (specShowLines tag (db.index tag))) := by
  have hf : (fun (out : String) (entry : TrackEntry) => out ++ showEntry entry)
      = (fun out entry => out ++ specPrint (specEntryLines entry)) := by
    funext out entry
    rw [showEntry_eq]
  unfold doShow
  simp only [htag, if_false, hf, foldl_append_eq_join]
  have hs : specShowLines tag (db.index tag)
      = [tag] ++ ((db.index tag).map specEntryLines).flatten := rfl
  rw [hs, specPrint_append, specPrint_flatten, List.map_map]
  rfl

theorem specShowLines_length (tag : String) (entries : List TrackEntry) :
    (specShowLines tag entries).length
      = 1 + entries.length + (entries.map (fun e => e.Notes.length)).sum := by
  induction entries with
  | nil => rfl
  | cons e rest ih =>
    simp only [specShowLines, List.length_cons, List.map_cons, List.flatten_cons,
      List.length_append, specEntryLines, List.length_map, List.sum_cons] at ih ⊢
    omega

/-- C14: for a tag other than `all`, `doShow` prints exactly the line `<tag>` and then,
for each entry of the tag in sequence order, the line `<tab><Start> - <Stop>` followed by
one line `<tab><tab><note>` per note in notes order, every line ended by a newline; these
are `1 + (number of entries) + (total number of notes)` lines, a tag without entries
prints only its name, and the `show` command returns the map it was given. -/
theorem doShow_prints_tag_block (fuel : Nat) (now tag note : String) (db : TrackDB)
    (htag : tag ≠ "all") :
    doShow fuel tag db = some (specPrint (specShowLines tag (db.index tag)))
      ∧ (specShowLines tag (db.index tag)).length
          = 1 + (db.index tag).length + ((db.index tag).map (fun e => e.Notes.length)).sum
      ∧ (db.index tag = [] → doShow fuel tag db = some (tag ++ "\n"))
      ∧ runCommand now fuel Command.Show tag note db
          = .ok (db, specPrint (specShowLines tag (db.index tag))) := by
  have h := doShow_of_ne_all fuel tag db htag
  refine ⟨h, specShowLines_length tag _, ?_, ?_⟩
  · intro hnil
    rw [h, hnil]
    simp [specShowLines, specPrint, String.join]
  · simp [runCommand, h]

/-- Witness of C14: `show foo` on a map where `foo` has a closed entry with two notes and
an open entry without notes. -/
theorem doShow_prints_tag_block_witness :
    "foo" ≠ "all"
      ∧ specPrint (specShowLines "foo"
            ((TrackDB.alloc [("foo", [⟨"T1", "T2", ["a", "b"]⟩, ⟨"T3", "", []⟩])]).index "foo"))
          = "foo\n\tT1 - T2\n\t\ta\n\t\tb\n\tT3 - \n"
      ∧ doShow 0 "foo" (TrackDB.alloc [("foo", [⟨"T1", "T2", ["a", "b"]⟩, ⟨"T3", "", []⟩])])
          = some (specPrint (specShowLines "foo"
              ((TrackDB.alloc [("foo", [⟨"T1", "T2", ["a", "b"]⟩, ⟨"T3", "", []⟩])]).index
                "foo")))
      ∧ (specShowLines "foo"
            ((TrackDB.alloc [("foo", [⟨"T1", "T2", ["a", "b"]⟩, ⟨"T3", "", []⟩])]).index
              "foo")).length = 1 + 2 + 2 :=
  ⟨by decide, by decide,
    (doShow_prints_tag_block 0 "T4" "foo" ""
      (TrackDB.alloc [("foo", [⟨"T1", "T2", ["a", "b"]⟩, ⟨"T3", "", []⟩])]) (by decide)).1,
    by decide⟩

/-! Lemmas on the keys of a map and on the range over them -/

theorem eraseDups_loop_spec (as bs : List String) (hbs : bs.Nodup) :
    (List.eraseDups.loop as bs).Nodup
      ∧ ∀ x, x ∈ List.eraseDups.loop as bs ↔ x ∈ as ∨ x ∈ bs := by
  induction as generalizing bs with
  | nil => simp [List.eraseDups.loop, hbs]
  | cons a rest ih =>
    by_cases ha : a ∈ bs
    · have he : bs.elem a = true := by simpa using ha
      simp only [List.eraseDups.loop, he]
      refine ⟨(ih bs hbs).1, fun x => ?_⟩
      rw [(ih bs hbs).2 x]
      constructor
      · rintro (h | h)
        · exact Or.inl (List.mem_cons_of_mem _ h)
        · exact Or.inr h
      · rintro (h | h)
        · rcases List.mem_cons.1 h with h | h
          · exact Or.inr (h ▸ ha)
          · exact Or.inl h
        · exact Or.inr h
    · have he : bs.elem a = false := by simpa using ha
      simp only [List.eraseDups.loop, he]
      have hn : (a :: bs).Nodup := List.nodup_cons.2 ⟨ha, hbs⟩
      refine ⟨(ih (a :: bs) hn).1, fun x => ?_⟩
      rw [(ih (a :: bs) hn).2 x]
      simp only [List.mem_cons]
      tauto

theorem mem_map_fst_iff (t : String) (kvs : List (String × List TrackEntry)) :
    t ∈ kvs.map Prod.fst ↔ findTag t kvs ≠ none := by
  induction kvs with
  | nil => simp [findTag]
  | cons kv rest ih =>
    obtain ⟨k, v⟩ := kv
    by_cases hk : k = t
    · simp [findTag, hk]
    · simp only [List.map_cons, List.mem_cons, findTag, hk, if_false, ih]
      constructor
      · rintro (h | h)
        · exact absurd h.symm hk
        · exact h
      · exact Or.inr

/-- The keys are listed once each, and they are the tags that the map binds. -/
theorem keys_spec (db : TrackDB) :
    db.keys.Nodup ∧ ∀ t, t ∈ db.keys ↔ db.lookup t ≠ none := by
  cases db with
  | nil => simp [TrackDB.keys, TrackDB.lookup]
  | alloc kvs =>
    have h := eraseDups_loop_spec (kvs.map Prod.fst) [] List.nodup_nil
    refine ⟨h.1, fun t => ?_⟩
    have h2 := h.2 t
    simp only [List.not_mem_nil, or_false] at h2
    simp only [TrackDB.keys, TrackDB.lookup, List.eraseDups]
    rw [h2]
    exact mem_map_fst_iff t kvs

theorem range_none (f : String → Option String) (keys : List String) :
    keys.foldl
        (fun acc t =>
          match acc, f t with
          | some out, some o => some (out ++ o)
          | _, _ => none)
        none = none := by
  induction keys with
  | nil => rfl
  | cons k ks ih => simpa using ih

/-- A range in which one call does not return does not return. -/
theorem range_of_none (f : String → Option String) (keys : List String) (t : String)
    (ht : t ∈ keys) (hf : f t = none) (acc : Option String) :
    keys.foldl
        (fun acc t =>
          match acc, f t with
          | some out, some o => some (out ++ o)
          | _, _ => none)
        acc = none := by
  induction keys generalizing acc with
  | nil => simp at ht
  | cons k ks ih =>
    rcases List.mem_cons.1 ht with h | h
    · subst h
      simp only [List.foldl_cons, hf]
      cases acc <;> exact range_none f ks
    · exact ih h _

/-- A range in which every call returns prints the blocks one after the other. -/
theorem range_of_some (f : String → Option String) (g : String → String)
    (keys : List String) (hf : ∀ t ∈ keys, f t = some (g t)) (acc : String) :
    keys.foldl
        (fun acc t =>
          match acc, f t with
          | some out, some o => some (out ++ o)
          | _, _ => none)
        (some acc) = some (acc ++ String.join (keys.map g)) := by
  induction keys generalizing acc with
  | nil => simp [String.join]
  | cons k ks ih =>
    have hk := hf k (List.mem_cons_self _ _)
    simp only [List.foldl_cons, hk, List.map_cons, join_cons]
    rw [ih (fun t ht => hf t (List.mem_cons_of_mem _ ht)), String.append_assoc]

/-- With a key named `all` in the map, `doShow "all"` returns at no recursion depth. -/
theorem doShow_all_of_key_all (db : TrackDB) (hkey : "all" ∈ db.keys) (fuel : Nat) :
    doShow fuel "all" db = none := by
  induction fuel with
  | zero => simp [doShow]
  | succ f ih =>
    unfold doShow
    simp only [if_true]
    exact range_of_none (fun t => doShow f t db) db.keys "all" hkey ih (some "")

/-- C15, for a map without a key named `all`: `doShow "all"` prints the concatenation,
over the keys of the map in the order of the range, of the block that `doShow` prints for
that key; every tag that the map binds is a key and no key is listed twice.  The order
of the range is the order of the bindings, which is arbitrary. -/
theorem doShow_all_prints_blocks (fuel : Nat) (db : TrackDB) (hall : "all" ∉ db.keys) :
    doShow (fuel + 1) "all" db
        = some (String.join (db.keys.map
            (fun t => specPrint (specShowLines t (db.index t)))))
      ∧ (∀ t ∈ db.keys, doShow fuel t db = some (specPrint (specShowLines t (db.index t))))
      ∧ db.keys.Nodup
      ∧ (∀ t, t ∈ db.keys ↔ db.lookup t ≠ none) := by
  have hblock : ∀ t ∈ db.keys,
      doShow fuel t db = some (specPrint (specShowLines t (db.index t))) := by
    intro t ht
    exact doShow_of_ne_all fuel t db (fun h => hall (h ▸ ht))
  refine ⟨?_, hblock, (keys_spec db).1, (keys_spec db).2⟩
  have h := range_of_some (fun t => doShow fuel t db)
    (fun t => specPrint (specShowLines t (db.index t))) db.keys hblock ""
  rw [String.empty_append] at h
  rw [← h, doShow]
  rfl

/-- Witness of C15 (no key `all`): `show all` on a map with the tags `bar` and `foo`. -/
theorem doShow_all_prints_blocks_witness :
    "all" ∉ (TrackDB.alloc [("bar", [⟨"T0", "", ["n"]⟩]), ("foo", [⟨"T1", "T2", []⟩])]).keys
      ∧ String.join
          ((TrackDB.alloc [("bar", [⟨"T0", "", ["n"]⟩]), ("foo", [⟨"T1", "T2", []⟩])]).keys.map
            (fun t => specPrint (specShowLines t
              ((TrackDB.alloc [("bar", [⟨"T0", "", ["n"]⟩]),
                ("foo", [⟨"T1", "T2", []⟩])]).index t))))
          = "bar\n\tT0 - \n\t\tn\nfoo\n\tT1 - T2\n"
      ∧ doShow (0 + 1) "all"
          (TrackDB.alloc [("bar", [⟨"T0", "", ["n"]⟩]), ("foo", [⟨"T1", "T2", []⟩])])
          = some (String.join
              ((TrackDB.alloc [("bar", [⟨"T0", "", ["n"]⟩]),
                  ("foo", [⟨"T1", "T2", []⟩])]).keys.map
                (fun t => specPrint (specShowLines t
                  ((TrackDB.alloc [("bar", [⟨"T0", "", ["n"]⟩]),
                    ("foo", [⟨"T1", "T2", []⟩])]).index t))))) :=
  ⟨by decide, by decide,
    (doShow_all_prints_blocks 0
      (TrackDB.alloc [("bar", [⟨"T0", "", ["n"]⟩]), ("foo", [⟨"T1", "T2", []⟩])])
      (by decide)).1⟩

/-- C15 as stated fails on a map that has the key `all`: the range of `doShow "all"`
calls `doShow "all"` again, so no output is completed at any recursion depth. -/
theorem doShow_all_with_tag_all_no_output :
    (TrackDB.alloc [("all", [⟨"T1", "", []⟩])]).lookup "all" = some [⟨"T1", "", []⟩]
      ∧ ¬ ∃ fuel out, doShow fuel "all" (TrackDB.alloc [("all", [⟨"T1", "", []⟩])]) = some out := by
  refine ⟨by decide, ?_⟩
  rintro ⟨fuel, out, h⟩
  rw [doShow_all_of_key_all _ (by decide) fuel] at h
  exact Option.noConfusion h

/-- C17, as the code behaves: `start all` on the empty map stores the key `all`, and on
the resulting map `doShow "all"` (the command `show` without a tag) calls itself without
end: it returns at no recursion depth. -/
theorem doShow_all_does_not_terminate :
    ∃ db, doStart "2024-05-01 10:00:00" "all" (TrackDB.alloc []) = .ok (db, "")
      ∧ db.lookup "all" = some [⟨"2024-05-01 10:00:00", "", []⟩]
      ∧ ∀ fuel, doShow fuel "all" db = none :=
  ⟨TrackDB.alloc [("all", [⟨"2024-05-01 10:00:00", "", []⟩])], by rfl, by decide,
    fun fuel => doShow_all_of_key_all _ (by decide) fuel⟩

/-! Lemmas on properties of every entry sequence -/

theorem each_iff (P : List TrackEntry → Prop) (db : TrackDB) :
    db.each P ↔ ∀ tag entries, db.lookup tag = some entries → P entries := by
  constructor
  · intro h tag entries hl
    have hk : tag ∈ db.keys := ((keys_spec db).2 tag).2 (by simp [hl])
    have := h tag hk
    rwa [index_of_lookup db tag entries hl] at this
  · intro h tag hk
    have hne := ((keys_spec db).2 tag).1 hk
    cases hl : db.lookup tag with
    | none => exact absurd hl hne
    | some entries =>
      rw [index_of_lookup db tag entries hl]
      exact h tag entries hl

/-- A property of every sequence survives a change of the sequence of one tag to a
sequence that has the property. -/
theorem each_of_update (P : List TrackEntry → Prop) (db db1 : TrackDB) (tag : String)
    (entries : List TrackEntry) (hself : db1.lookup tag = some entries)
    (hother : ∀ t, t ≠ tag → db1.lookup t = db.lookup t) (hP : P entries)
    (h : db.each P) : db1.each P := by
  rw [each_iff] at h ⊢
  intro t es hl
  by_cases ht : t = tag
  · subst ht
    rw [hself] at hl
    cases hl
    exact hP
  · rw [hother t ht] at hl
    exact h t es hl

/-! The three outcomes of each handler -/

theorem concat_inj (earlier earlier2 : List TrackEntry) (last last2 : TrackEntry)
    (h : earlier ++ [last] = earlier2 ++ [last2]) : earlier = earlier2 ∧ last = last2 := by
  obtain ⟨he, hl⟩ := List.append_inj' h rfl
  simp only [List.cons.injEq, and_true] at hl
  exact ⟨he, hl⟩

theorem doStart_of_not_started (now tag : String) (db : TrackDB)
    (earlier : List TrackEntry) (last : TrackEntry)
    (hseq : db.index tag = earlier ++ [last]) (hno : ¬ last.isOpen) :
    doStart now tag db
      = (db.assign tag (db.index tag ++ [{ Start := now, Stop := "", Notes := [] }])).map
          (fun db1 => (db1, "")) := by
  have he := elemAt_concat earlier last
  simp only [List.length_append, List.length_singleton, Nat.add_sub_cancel] at he
  have hno2 : ¬ (last.Start ≠ "" ∧ last.Stop = "") := hno
  simp only [doStart, hseq, List.length_append, List.length_singleton,
    Nat.add_sub_cancel, he]
  cases db.assign tag (earlier ++ [last] ++ [{ Start := now, Stop := "", Notes := [] }]) <;>
    simp [Except.map, hno2]

/-- The function `doStart` returns the map it was given, or panics on the nil map, or
appends the new entry to a sequence whose last entry is not open. -/
theorem doStart_cases (now tag : String) (db : TrackDB) :
    (∃ out, doStart now tag db = .ok (db, out))
      ∨ (db = TrackDB.nil ∧ doStart now tag db = .error "assignment to entry in nil map")
      ∨ ∃ db1, doStart now tag db = .ok (db1, "")
          ∧ db1.lookup tag = some (db.index tag ++ [⟨now, "", []⟩])
          ∧ (∀ t, t ≠ tag → db1.lookup t = db.lookup t)
          ∧ (∀ earlier last, db.index tag = earlier ++ [last] → ¬ last.isOpen) := by
  have key : doStart now tag db
        = (db.assign tag (db.index tag ++ [{ Start := now, Stop := "", Notes := [] }])).map
            (fun db1 => (db1, "")) →
      (∀ earlier last, db.index tag = earlier ++ [last] → ¬ last.isOpen) →
      (db = TrackDB.nil ∧ doStart now tag db = .error "assignment to entry in nil map")
        ∨ ∃ db1, doStart now tag db = .ok (db1, "")
            ∧ db1.lookup tag = some (db.index tag ++ [⟨now, "", []⟩])
            ∧ (∀ t, t ≠ tag → db1.lookup t = db.lookup t)
            ∧ (∀ earlier last, db.index tag = earlier ++ [last] → ¬ last.isOpen) := by
    intro hrun hlast
    cases db with
    | nil => exact Or.inl ⟨rfl, by rw [hrun]; rfl⟩
    | alloc kvs =>
      have ha : (TrackDB.alloc kvs).assign tag
          ((TrackDB.alloc kvs).index tag ++ [{ Start := now, Stop := "", Notes := [] }])
          = .ok (.alloc (putTag tag
              ((TrackDB.alloc kvs).index tag ++ [{ Start := now, Stop := "", Notes := [] }])
              kvs)) := rfl
      exact Or.inr ⟨_, by rw [hrun, ha]; rfl, lookup_assign_self _ _ _ _ ha,
        fun t ht => lookup_assign_other _ _ _ _ _ ha ht, hlast⟩
  rcases List.eq_nil_or_concat (db.index tag) with hnil | ⟨earlier, last, hseq⟩
  · refine Or.inr (key (doStart_of_not_open now tag db (Or.inl hnil)) ?_)
    intro earlier last h
    rw [hnil] at h
    simp at h
  · rw [List.concat_eq_append] at hseq
    by_cases hopen : last.isOpen
    · exact Or.inl ⟨_, doStart_of_open now tag db earlier last hseq hopen.1 hopen.2⟩
    · refine Or.inr (key (doStart_of_not_started now tag db earlier last hseq hopen) ?_)
      intro earlier2 last2 h
      rw [hseq] at h
      obtain ⟨_, hl⟩ := concat_inj _ _ _ _ h
      exact hl ▸ hopen

/-- The function `doStop` returns the map it was given, or sets the `Stop` of an open
last entry. -/
theorem doStop_cases (now tag : String) (db : TrackDB) :
    (∃ out, doStop now tag db = .ok (db, out))
      ∨ ∃ earlier last db1, db.index tag = earlier ++ [last] ∧ last.Stop = ""
          ∧ doStop now tag db = .ok (db1, "")
          ∧ db1.lookup tag = some (earlier ++ [⟨last.Start, now, last.Notes⟩])
          ∧ (∀ t, t ≠ tag → db1.lookup t = db.lookup t) := by
  rcases List.eq_nil_or_concat (db.index tag) with hnil | ⟨earlier, last, hseq⟩
  · exact Or.inl ⟨_, doStop_of_empty now tag db hnil⟩
  · rw [List.concat_eq_append] at hseq
    by_cases hopen : last.Stop = ""
    · exact Or.inr ⟨earlier, last, _, hseq, hopen,
        doStop_of_open now tag db earlier last hseq hopen,
        lookup_storeAt_self db tag earlier last _ hseq,
        fun t ht => lookup_storeAt_other db tag t _ _ ht⟩
    · exact Or.inl ⟨_, doStop_of_closed now tag db earlier last hseq hopen⟩

/-- The function `doNote` returns the map it was given, or appends the note to an open
last entry. -/
theorem doNote_cases (tag note : String) (db : TrackDB) :
    (∃ out, doNote tag note db = .ok (db, out))
      ∨ ∃ earlier last db1, db.index tag = earlier ++ [last] ∧ last.Stop = ""
          ∧ doNote tag note db = .ok (db1, "")
          ∧ db1.lookup tag = some (earlier ++ [⟨last.Start, last.Stop, last.Notes ++ [note]⟩])
          ∧ (∀ t, t ≠ tag → db1.lookup t = db.lookup t) := by
  rcases List.eq_nil_or_concat (db.index tag) with hnil | ⟨earlier, last, hseq⟩
  · exact Or.inl ⟨_, doNote_of_empty tag note db hnil⟩
  · rw [List.concat_eq_append] at hseq
    by_cases hopen : last.Stop = ""
    · exact Or.inr ⟨earlier, last, _, hseq, hopen,
        doNote_of_open tag note db earlier last hseq hopen,
        lookup_storeAt_self db tag earlier last _ hseq,
        fun t ht => lookup_storeAt_other db tag t _ _ ht⟩
    · exact Or.inl ⟨_, doNote_of_closed tag note db earlier last hseq hopen⟩

theorem each_index (P : List TrackEntry → Prop) (db : TrackDB) (tag : String)
    (h : db.each P) (hnil : P []) : P (db.index tag) := by
  cases hl : db.lookup tag with
  | none => simpa [TrackDB.index, hl] using hnil
  | some entries =>
    rw [index_of_lookup db tag entries hl]
    exact (each_iff P db).1 h tag entries hl

/-- C18: on a map in which no entry other than the last one of a sequence is open, every
map returned by `doStart`, `doStop` or `doNote` has that property again, for every tag,
note text and timestamp; `doStop` and `doNote` always return a map, and so does `doStart`
on an allocated map. -/
theorem onlyLastOpen_preserved (now tag note : String) (db : TrackDB)
    (hinv : onlyLastOpen db) :
    (∀ r, doStart now tag db = .ok r → onlyLastOpen r.1)
      ∧ (db ≠ TrackDB.nil → ∃ r, doStart now tag db = .ok r)
      ∧ (∃ r, doStop now tag db = .ok r ∧ onlyLastOpen r.1)
      ∧ (∃ r, doNote tag note db = .ok r ∧ onlyLastOpen r.1) := by
  have hidx := each_index _ db tag hinv (by simp)
  refine ⟨?_, ?_, ?_, ?_⟩
  · intro r hr
    rcases doStart_cases now tag db with ⟨out, h⟩ | ⟨_, h⟩ | ⟨db1, h, hself, hother, hlast⟩
    · rw [h] at hr
      cases hr
      exact hinv
    · rw [h] at hr
      cases hr
    · rw [h] at hr
      cases hr
      refine each_of_update _ db db1 tag _ hself hother ?_ hinv
      intro e he
      rw [List.dropLast_concat] at he
      rcases List.eq_nil_or_concat (db.index tag) with hnil | ⟨earlier, last, hseq⟩
      · rw [hnil] at he
        simp at he
      · rw [List.concat_eq_append] at hseq
        rw [hseq] at he hidx
        rw [List.dropLast_concat] at hidx
        rcases List.mem_append.1 he with he | he
        · exact hidx e he
        · simp only [List.mem_singleton] at he
          exact he ▸ hlast earlier last hseq
  · intro hdb
    rcases doStart_cases now tag db with ⟨out, h⟩ | ⟨hnil, _⟩ | ⟨db1, h, _⟩
    · exact ⟨_, h⟩
    · exact absurd hnil hdb
    · exact ⟨_, h⟩
  · rcases doStop_cases now tag db with ⟨out, h⟩ | ⟨earlier, last, db1, hseq, _, h, hself, hother⟩
    · exact ⟨_, h, hinv⟩
    · refine ⟨_, h, each_of_update _ db db1 tag _ hself hother ?_ hinv⟩
      rw [hseq] at hidx
      rw [List.dropLast_concat] at hidx ⊢
      exact hidx
  · rcases doNote_cases tag note db with ⟨out, h⟩ | ⟨earlier, last, db1, hseq, _, h, hself, hother⟩
    · exact ⟨_, h, hinv⟩
    · refine ⟨_, h, each_of_update _ db db1 tag _ hself hother ?_ hinv⟩
      rw [hseq] at hidx
      rw [List.dropLast_concat] at hidx ⊢
      exact hidx

/-- Witness of C18: the three handlers on a map where `foo` has a closed and an open
entry. -/
theorem onlyLastOpen_preserved_witness :
    onlyLastOpen (TrackDB.alloc [("foo", [⟨"T1", "T2", []⟩, ⟨"T3", "", []⟩])])
      ∧ (∀ r, doStart "T4" "foo"
            (TrackDB.alloc [("foo", [⟨"T1", "T2", []⟩, ⟨"T3", "", []⟩])]) = .ok r →
          onlyLastOpen r.1)
      ∧ (TrackDB.alloc [("foo", [⟨"T1", "T2", []⟩, ⟨"T3", "", []⟩])] ≠ TrackDB.nil →
          ∃ r, doStart "T4" "foo"
            (TrackDB.alloc [("foo", [⟨"T1", "T2", []⟩, ⟨"T3", "", []⟩])]) = .ok r)
      ∧ (∃ r, doStop "T4" "foo"
            (TrackDB.alloc [("foo", [⟨"T1", "T2", []⟩, ⟨"T3", "", []⟩])]) = .ok r
          ∧ onlyLastOpen r.1)
      ∧ (∃ r, doNote "foo" "n"
            (TrackDB.alloc [("foo", [⟨"T1", "T2", []⟩, ⟨"T3", "", []⟩])]) = .ok r
          ∧ onlyLastOpen r.1) :=
  ⟨by decide,
    onlyLastOpen_preserved "T4" "foo" "n"
      (TrackDB.alloc [("foo", [⟨"T1", "T2", []⟩, ⟨"T3", "", []⟩])]) (by decide)⟩

/-- C19, with the `Start` of the last entry set for `doStop`: on a map in which every
entry with a non-empty `Stop` has a non-empty `Start`, every map returned by `doStart` or
`doNote` has that property again, and so has the map returned by `doStop` when the last
entry of the tag, if there is one, has a non-empty `Start`; `doStop` and `doNote` always
return a map, and so does `doStart` on an allocated map. -/
theorem stopImpliesStart_preserved (now tag note : String) (db : TrackDB)
    (hinv : stopImpliesStart db) :
    (∀ r, doStart now tag db = .ok r → stopImpliesStart r.1)
      ∧ (db ≠ TrackDB.nil → ∃ r, doStart now tag db = .ok r)
      ∧ ((∀ earlier last, db.index tag = earlier ++ [last] → last.Start ≠ "") →
          ∃ r, doStop now tag db = .ok r ∧ stopImpliesStart r.1)
      ∧ (∃ r, doNote tag note db = .ok r ∧ stopImpliesStart r.1) := by
  have hidx := each_index _ db tag hinv (by simp)
  refine ⟨?_, ?_, ?_, ?_⟩
  · intro r hr
    rcases doStart_cases now tag db with ⟨out, h⟩ | ⟨_, h⟩ | ⟨db1, h, hself, hother, _⟩
    · rw [h] at hr
      cases hr
      exact hinv
    · rw [h] at hr
      cases hr
    · rw [h] at hr
      cases hr
      refine each_of_update _ db db1 tag _ hself hother ?_ hinv
      intro e he hstop
      rcases List.mem_append.1 he with he | he
      · exact hidx e he hstop
      · simp only [List.mem_singleton] at he
        subst he
        exact absurd rfl hstop
  · intro hdb
    rcases doStart_cases now tag db with ⟨out, h⟩ | ⟨hnil, _⟩ | ⟨db1, h, _⟩
    · exact ⟨_, h⟩
    · exact absurd hnil hdb
    · exact ⟨_, h⟩
  · intro hlast
    rcases doStop_cases now tag db with ⟨out, h⟩ | ⟨earlier, last, db1, hseq, _, h, hself, hother⟩
    · exact ⟨_, h, hinv⟩
    · refine ⟨_, h, each_of_update _ db db1 tag _ hself hother ?_ hinv⟩
      rw [hseq] at hidx
      intro e he hstop
      rcases List.mem_append.1 he with he | he
      · exact hidx e (List.mem_append_left _ he) hstop
      · simp only [List.mem_singleton] at he
        subst he
        exact hlast earlier last hseq
  · rcases doNote_cases tag note db with ⟨out, h⟩ | ⟨earlier, last, db1, hseq, _, h, hself, hother⟩
    · exact ⟨_, h, hinv⟩
    · refine ⟨_, h, each_of_update _ db db1 tag _ hself hother ?_ hinv⟩
      rw [hseq] at hidx
      intro e he hstop
      rcases List.mem_append.1 he with he | he
      · exact hidx e (List.mem_append_left _ he) hstop
      · simp only [List.mem_singleton] at he
        subst he
        exact hidx last (by simp) hstop

/-- Witness of C19 (last `Start` set for `doStop`): the three handlers on a map where
`foo` has a closed and an open entry. -/
theorem stopImpliesStart_preserved_witness :
    stopImpliesStart (TrackDB.alloc [("foo", [⟨"T1", "T2", []⟩, ⟨"T3", "", []⟩])])
      ∧ (∀ earlier last,
          (TrackDB.alloc [("foo", [⟨"T1", "T2", []⟩, ⟨"T3", "", []⟩])]).index "foo"
            = earlier ++ [last] → last.Start ≠ "")
      ∧ (∃ r, doStop "T4" "foo"
            (TrackDB.alloc [("foo", [⟨"T1", "T2", []⟩, ⟨"T3", "", []⟩])]) = .ok r
          ∧ stopImpliesStart r.1)
      ∧ (∃ r, doStart "T4" "bar"
            (TrackDB.alloc [("foo", [⟨"T1", "T2", []⟩, ⟨"T3", "", []⟩])]) = .ok r)
      ∧ (∃ r, doNote "foo" "n"
            (TrackDB.alloc [("foo", [⟨"T1", "T2", []⟩, ⟨"T3", "", []⟩])]) = .ok r
          ∧ stopImpliesStart r.1) :=
  have hlast : ∀ earlier last,
      (TrackDB.alloc [("foo", [⟨"T1", "T2", []⟩, ⟨"T3", "", []⟩])]).index "foo"
        = earlier ++ [last] → last.Start ≠ "" := by
    intro earlier last h
    have h2 : [⟨"T1", "T2", []⟩] ++ [(⟨"T3", "", []⟩ : TrackEntry)] = earlier ++ [last] := h
    rw [← (concat_inj _ _ _ _ h2).2]
    decide
  ⟨by decide, hlast,
    (stopImpliesStart_preserved "T4" "foo" "n"
      (TrackDB.alloc [("foo", [⟨"T1", "T2", []⟩, ⟨"T3", "", []⟩])]) (by decide)).2.2.1 hlast,
    (stopImpliesStart_preserved "T4" "bar" "n"
      (TrackDB.alloc [("foo", [⟨"T1", "T2", []⟩, ⟨"T3", "", []⟩])]) (by decide)).2.1
      (by decide),
    (stopImpliesStart_preserved "T4" "foo" "n"
      (TrackDB.alloc [("foo", [⟨"T1", "T2", []⟩, ⟨"T3", "", []⟩])]) (by decide)).2.2.2⟩

/-- C19 as stated fails for `doStop` on a last entry with empty `Start` and empty `Stop`:
every entry of the map satisfies the invariant, the timestamp is not empty, and the map
returned by `doStop` has an entry with a non-empty `Stop` and an empty `Start`. -/
theorem doStop_breaks_stopImpliesStart :
    stopImpliesStart (TrackDB.alloc [("foo", [⟨"", "", []⟩])])
      ∧ "2024-05-01 10:00:00" ≠ ""
      ∧ doStop "2024-05-01 10:00:00" "foo" (TrackDB.alloc [("foo", [⟨"", "", []⟩])])
          = .ok (TrackDB.alloc [("foo", [⟨"", "2024-05-01 10:00:00", []⟩])], "")
      ∧ ¬ stopImpliesStart (TrackDB.alloc [("foo", [⟨"", "2024-05-01 10:00:00", []⟩])]) :=
  ⟨by decide, by decide, by rfl, by decide⟩

/-! Maps reachable from the empty allocated map -/

theorem index_of_lookup_eq (db db1 : TrackDB) (t : String)
    (h : db1.lookup t = db.lookup t) : db1.index t = db.index t := by
  simp [TrackDB.index, h]

theorem ne_nil_of_lookup (db : TrackDB) (tag : String) (entries : List TrackEntry)
    (h : db.lookup tag = some entries) : db ≠ TrackDB.nil := by
  intro hnil
  rw [hnil] at h
  simp [TrackDB.lookup] at h

/-- The `Start` fields of every sequence after a change of the sequence of one tag. -/
theorem starts_prefix_of_update (db db1 : TrackDB) (tag : String)
    (entries : List TrackEntry) (hself : db1.lookup tag = some entries)
    (hother : ∀ t, t ≠ tag → db1.lookup t = db.lookup t)
    (hpre : (db.index tag).map TrackEntry.Start <+: entries.map TrackEntry.Start) (t : String) :
    (db.index t).map TrackEntry.Start <+: (db1.index t).map TrackEntry.Start := by
  by_cases ht : t = tag
  · subst ht
    rw [index_of_lookup db1 t entries hself]
    exact hpre
  · rw [index_of_lookup_eq db db1 t (hother t ht)]

/-- One call with a non-empty timestamp, on an allocated map in which every key has
entries and every entry has its `Start` set, returns such a map again, and the `Start`
fields of every old sequence are an initial segment of those of the new one. -/
theorem call_step (c : Call) (db : TrackDB) (hdb : db ≠ TrackDB.nil) (hinv : startsSet db)
    (hc : c.stamped) :
    ∃ db1 out, c.run db = .ok (db1, out) ∧ db1 ≠ TrackDB.nil ∧ startsSet db1
      ∧ ∀ t, (db.index t).map TrackEntry.Start <+: (db1.index t).map TrackEntry.Start := by
  have hold : ∀ tag earlier last, db.index tag = earlier ++ [last] →
      ∀ e ∈ earlier ++ [last], e.Start ≠ "" := by
    intro tag earlier last hseq
    exact ((each_iff _ db).1 hinv tag _ (lookup_of_index db tag earlier last hseq)).2
  cases c with
  | start now tag =>
    rcases doStart_cases now tag db with ⟨out, h⟩ | ⟨hnil, _⟩ | ⟨db1, h, hself, hother, _⟩
    · exact ⟨db, out, h, hdb, hinv, fun t => List.prefix_refl _⟩
    · exact absurd hnil hdb
    · refine ⟨db1, "", h, ne_nil_of_lookup db1 tag _ hself,
        each_of_update _ db db1 tag _ hself hother ⟨by simp, ?_⟩ hinv,
        starts_prefix_of_update db db1 tag _ hself hother (by simp)⟩
      intro e he
      rcases List.mem_append.1 he with he | he
      · rcases List.eq_nil_or_concat (db.index tag) with hnil | ⟨earlier, last, hseq⟩
        · rw [hnil] at he
          simp at he
        · rw [List.concat_eq_append] at hseq
          rw [hseq] at he
          exact hold tag earlier last hseq e he
      · simp only [List.mem_singleton] at he
        subst he
        exact hc
  | stop now tag =>
    rcases doStop_cases now tag db with ⟨out, h⟩ | ⟨earlier, last, db1, hseq, _, h, hself, hother⟩
    · exact ⟨db, out, h, hdb, hinv, fun t => List.prefix_refl _⟩
    · refine ⟨db1, "", h, ne_nil_of_lookup db1 tag _ hself,
        each_of_update _ db db1 tag _ hself hother ⟨by simp, ?_⟩ hinv,
        starts_prefix_of_update db db1 tag _ hself hother (by simp [hseq])⟩
      intro e he
      rcases List.mem_append.1 he with he | he
      · exact hold tag earlier last hseq e (List.mem_append_left _ he)
      · simp only [List.mem_singleton] at he
        subst he
        exact hold tag earlier last hseq last (by simp)
  | note tag text =>
    rcases doNote_cases tag text db with ⟨out, h⟩ | ⟨earlier, last, db1, hseq, _, h, hself, hother⟩
    · exact ⟨db, out, h, hdb, hinv, fun t => List.prefix_refl _⟩
    · refine ⟨db1, "", h, ne_nil_of_lookup db1 tag _ hself,
        each_of_update _ db db1 tag _ hself hother ⟨by simp, ?_⟩ hinv,
        starts_prefix_of_update db db1 tag _ hself hother (by simp [hseq])⟩
      intro e he
      rcases List.mem_append.1 he with he | he
      · exact hold tag earlier last hseq e (List.mem_append_left _ he)
      · simp only [List.mem_singleton] at he
        subst he
        exact hold tag earlier last hseq last (by simp)

theorem runCalls_good (cs : List Call) (db : TrackDB) (hdb : db ≠ TrackDB.nil)
    (hinv : startsSet db) (hcs : ∀ c ∈ cs, c.stamped) :
    ∃ db1, runCalls cs db = .ok db1 ∧ db1 ≠ TrackDB.nil ∧ startsSet db1
      ∧ ∀ t, (db.index t).map TrackEntry.Start <+: (db1.index t).map TrackEntry.Start := by
  induction cs generalizing db with
  | nil => exact ⟨db, rfl, hdb, hinv, fun t => List.prefix_refl _⟩
  | cons c rest ih =>
    obtain ⟨db1, out, hrun, hdb1, hinv1, hpre1⟩ :=
      call_step c db hdb hinv (hcs c (List.mem_cons_self _ _))
    obtain ⟨db2, hrest, hdb2, hinv2, hpre2⟩ :=
      ih db1 hdb1 hinv1 (fun c hc => hcs c (List.mem_cons_of_mem _ hc))
    refine ⟨db2, ?_, hdb2, hinv2, fun t => (hpre1 t).trans (hpre2 t)⟩
    simp only [runCalls, hrun]
    exact hrest

theorem runCalls_append (pre post : List Call) (db db1 : TrackDB)
    (h : runCalls pre db = .ok db1) : runCalls (pre ++ post) db = runCalls post db1 := by
  induction pre generalizing db with
  | nil =>
    simp only [runCalls, Except.ok.injEq] at h
    subst h
    rfl
  | cons c rest ih =>
    simp only [runCalls, List.cons_append] at h ⊢
    cases hrun : c.run db with
    | error msg => simp [hrun] at h
    | ok r =>
      obtain ⟨db2, out⟩ := r
      simp only [hrun] at h ⊢
      exact ih db2 h

/-- C20: every finite sequence `pre ++ post` of `doStart`, `doStop` and `doNote` calls
with non-empty timestamps runs without panic from the empty allocated map; in the map
`db2` it reaches no key is bound to the empty sequence and every entry has a non-empty
`Start`; and against the map `db1` reached after `pre`, every tag has at least as many
entries in `db2`, the `Start` fields of its entries in `db1` being an initial segment of
those in `db2`. -/
theorem reachable_store_invariants (pre post : List Call)
    (hpre : ∀ c ∈ pre, c.stamped) (hpost : ∀ c ∈ post, c.stamped) :
    ∃ db1 db2, runCalls pre (TrackDB.alloc []) = .ok db1
      ∧ runCalls (pre ++ post) (TrackDB.alloc []) = .ok db2
      ∧ db2 ≠ TrackDB.nil
      ∧ (∀ tag entries, db2.lookup tag = some entries →
          entries ≠ [] ∧ ∀ e ∈ entries, e.Start ≠ "")
      ∧ (∀ tag, (db1.index tag).length ≤ (db2.index tag).length)
      ∧ (∀ tag, (db1.index tag).map TrackEntry.Start
          <+: (db2.index tag).map TrackEntry.Start) := by
  obtain ⟨db1, h1, hdb1, hinv1, _⟩ :=
    runCalls_good pre (TrackDB.alloc []) (by decide) (by decide) hpre
  obtain ⟨db2, h2, hdb2, hinv2, hpre2⟩ := runCalls_good post db1 hdb1 hinv1 hpost
  refine ⟨db1, db2, h1, ?_, hdb2, (each_iff _ db2).1 hinv2, ?_, hpre2⟩
  · rw [runCalls_append pre post _ db1 h1]
    exact h2
  · intro tag
    have := (hpre2 tag).length_le
    simpa using this

/-- Witness of C20: `start foo`, `note foo n`, then `stop foo`, `start foo`. -/
theorem reachable_store_invariants_witness :
    (∀ c ∈ [Call.start "T1" "foo", Call.note "foo" "n"], c.stamped)
      ∧ (∀ c ∈ [Call.stop "T2" "foo", Call.start "T3" "foo"], c.stamped)
      ∧ runCalls ([Call.start "T1" "foo", Call.note "foo" "n"]
            ++ [Call.stop "T2" "foo", Call.start "T3" "foo"]) (TrackDB.alloc [])
          = .ok (TrackDB.alloc [("foo", [⟨"T1", "T2", ["n"]⟩, ⟨"T3", "", []⟩])])
      ∧ ∃ db1 db2, runCalls [Call.start "T1" "foo", Call.note "foo" "n"] (TrackDB.alloc [])
            = .ok db1
        ∧ runCalls ([Call.start "T1" "foo", Call.note "foo" "n"]
              ++ [Call.stop "T2" "foo", Call.start "T3" "foo"]) (TrackDB.alloc [])
            = .ok db2
        ∧ db2 ≠ TrackDB.nil
        ∧ (∀ tag entries, db2.lookup tag = some entries →
            entries ≠ [] ∧ ∀ e ∈ entries, e.Start ≠ "")
        ∧ (∀ tag, (db1.index tag).length ≤ (db2.index tag).length)
        ∧ (∀ tag, (db1.index tag).map TrackEntry.Start
            <+: (db2.index tag).map TrackEntry.Start) :=
  ⟨by decide, by decide, by rfl,
    reachable_store_invariants [Call.start "T1" "foo", Call.note "foo" "n"]
      [Call.stop "T2" "foo", Call.start "T3" "foo"] (by decide) (by decide)⟩

end Track
